import Mathlib

/-!
# three_stacks (src/3.1/three_stacks.hpp)

A shallow embedding of the class template `three_stacks<T>`: three bounded
stacks kept in one array allocated by `new T[3*n]`.

* `size_t` is the 64-bit unsigned type: every arithmetic operation of the
  source on a `size_t` is reduced modulo `2^64` (`size_add`, `size_mul`,
  `size_sub`).
* The array `values_` is a list whose length is the number of elements that
  were allocated.  An access outside of it is undefined behaviour in C++ and
  is a `fault.out_of_bounds` here; a failed `assert` is a
  `fault.assertion_failed`.
* The index `k` of a stack subscripts the member `size_t stack_size_[3]`
  unchecked, so only `k ∈ {0,1,2}` has a meaning: `k` is a `Fin 3`.
* `new T[3*n]` leaves the elements uninitialised for a scalar `T`: the first
  content of the array is an arbitrary function `junk` of the position.
-/

namespace ThreeStacks

/-- Number of values of `size_t` (64-bit). -/
def SIZE_MOD : Nat := 2 ^ 64

/-- Largest size in bytes of an object (`PTRDIFF_MAX`): an array
new-expression asking for more throws instead of returning an array. -/
def PTRDIFF_MAX : Nat := 2 ^ 63 - 1

/-- Addition of `size_t`. -/
def size_add (a b : Nat) : Nat := (a + b) % SIZE_MOD

/-- Multiplication of `size_t`. -/
def size_mul (a b : Nat) : Nat := (a * b) % SIZE_MOD

/-- Subtraction of `size_t` (wraps below zero). -/
def size_sub (a b : Nat) : Nat := (a % SIZE_MOD + SIZE_MOD - b % SIZE_MOD) % SIZE_MOD

/-- How a member function can fail to return. -/
inductive fault where
  | assertion_failed
  | out_of_bounds
  deriving DecidableEq, Repr

/-- The data members of `three_stacks<T>`. -/
structure three_stacks (T : Type) where
  /-- the array `values_`, as allocated by the constructor -/
  values_ : List T
  /-- the member `max_stack_size_` -/
  max_stack_size_ : Nat
  /-- the member `stack_size_[3]` -/
  stack_size_ : Fin 3 → Nat

variable {T : Type}

/-- The constructor `three_stacks(const size_t n)`: `max_stack_size_(n)`,
`values_ = new T[3*n]` and `stack_size_ = {0, 0, 0}`.  The product `3*n` is a
`size_t`.  The result is `none` when the new-expression throws because the
array would be larger than any object can be; otherwise the allocation is
taken to succeed, with `junk i` the uninitialised content of slot `i`. -/
def create (n : Nat) (junk : Nat → T) : Option (three_stacks T) :=
  if size_mul 3 n ≤ PTRDIFF_MAX then
    some { values_ := (List.range (size_mul 3 n)).map junk
           max_stack_size_ := n
           stack_size_ := fun _ => 0 }
  else none

/-- The member `size(k)`. -/
def size (s : three_stacks T) (k : Fin 3) : Nat := s.stack_size_ k

/-- The member `empty(k)`. -/
def empty (s : three_stacks T) (k : Fin 3) : Bool := s.stack_size_ k == 0

/-- The member `push(k, value)`: the new state and the returned `bool`. -/
def push (s : three_stacks T) (k : Fin 3) (value : T) :
    Except fault (three_stacks T × Bool) :=
  if s.stack_size_ k = s.max_stack_size_ then
    .ok (s, false)
  else
    let i := size_add (size_mul k.val s.max_stack_size_) (s.stack_size_ k)
    if i < s.values_.length then
      .ok ({ s with
              values_ := s.values_.set i value
              stack_size_ := Function.update s.stack_size_ k (size_add (s.stack_size_ k) 1) },
           true)
    else .error .out_of_bounds

/-- The member `pop(k)`. -/
def pop (s : three_stacks T) (k : Fin 3) : three_stacks T :=
  if s.stack_size_ k = 0 then s
  else { s with stack_size_ := Function.update s.stack_size_ k (size_sub (s.stack_size_ k) 1) }

/-- The member `top(k)`. -/
def top (s : three_stacks T) (k : Fin 3) : Except fault T :=
  if empty s k = false then
    match s.values_[size_sub (size_add (size_mul k.val s.max_stack_size_) (s.stack_size_ k)) 1]? with
    | some v => .ok v
    | none => .error .out_of_bounds
  else .error .assertion_failed

/-- A call that changes the object. -/
inductive call (T : Type) where
  | push (k : Fin 3) (value : T)
  | pop (k : Fin 3)

/-- The calls of a list made one after the other: the last state, or the
fault of the first call that does not return. -/
def run (s : three_stacks T) : List (call T) → Except fault (three_stacks T)
  | [] => .ok s
  | .push k v :: cs =>
    match push s k v with
    | .ok (s', _) => run s' cs
    | .error e => .error e
  | .pop k :: cs => run (pop s k) cs

/-- The states an object built with capacity `n` can be in: the constructor
was called with the `size_t` value `n` and returned, then `push` and `pop`
were called any number of times, each call returning. -/
inductive reachable (n : Nat) : three_stacks T → Prop where
  | init (junk : Nat → T) (s : three_stacks T) :
      n < SIZE_MOD → create n junk = some s → reachable n s
  | step_push (s s' : three_stacks T) (k : Fin 3) (v : T) (b : Bool) :
      reachable n s → push s k v = .ok (s', b) → reachable n s'
  | step_pop (s : three_stacks T) (k : Fin 3) :
      reachable n s → reachable n (pop s k)

/-- Position in `values_` of element `i` of stack `k`, for capacity `n`. -/
def slot (n : Nat) (k : Fin 3) (i : Nat) : Nat := (k.val * n + i) % SIZE_MOD

/-- What is read from stack `k` by `m` rounds of `top(k)` then `pop(k)`. -/
def drain (s : three_stacks T) (k : Fin 3) : Nat → List (Except fault T)
  | 0 => []
  | m + 1 => top s k :: drain (pop s k) k m

/-- Calling `pop(k)` `m` times. -/
def pop_times (s : three_stacks T) (k : Fin 3) : Nat → three_stacks T
  | 0 => s
  | m + 1 => pop_times (pop s k) k m

/-! ## The model of the specification: three separate bounded lists -/

/-- Three separate lists, each holding at most `capacity` values, the last
element of a list being the top of that stack. -/
structure bounded_lists (T : Type) where
  capacity : Nat
  lists : Fin 3 → List T

/-- Push on the model: appends, unless the list has length `capacity`. -/
def model_push (m : bounded_lists T) (k : Fin 3) (v : T) : bounded_lists T × Bool :=
  if (m.lists k).length = m.capacity then (m, false)
  else ({ m with lists := Function.update m.lists k (m.lists k ++ [v]) }, true)

/-- Pop on the model: drops the last element, if any. -/
def model_pop (m : bounded_lists T) (k : Fin 3) : bounded_lists T :=
  { m with lists := Function.update m.lists k (m.lists k).dropLast }

/-- Top on the model: the last element; none on an empty list. -/
def model_top (m : bounded_lists T) (k : Fin 3) : Option T := (m.lists k).getLast?

/-- Size on the model. -/
def model_size (m : bounded_lists T) (k : Fin 3) : Nat := (m.lists k).length

/-- Emptiness on the model. -/
def model_empty (m : bounded_lists T) (k : Fin 3) : Bool := (m.lists k).isEmpty

/-- The abstraction: stack `k` is the slice of `values_` from
`k*max_stack_size_`, of length `stack_size_[k]`. -/
def abstraction (s : three_stacks T) : bounded_lists T :=
  { capacity := s.max_stack_size_,
    lists := fun k => (s.values_.drop (k.val * s.max_stack_size_)).take (s.stack_size_ k) }

/-! ## Objects used as examples -/

/-- The object made by `three_stacks<int>(2)`, its array holding zeros. -/
def demo_new : three_stacks Int :=
  (create 2 (fun _ => (0 : Int))).get rfl

/-- The object `demo_new` after `push(0, 10)`, `push(0, 20)`, `push(1, 99)`:
stack 0 is full, stack 1 holds one value, stack 2 is empty. -/
def demo_used : three_stacks Int :=
  (run demo_new [.push 0 10, .push 0 20, .push 1 99]).toOption.get rfl

/-- A capacity `n` for which `3*n` is `2` in `size_t`: `3*n = 2^64 + 2`. -/
def wrapping_capacity : Nat := 6148914691236517206

/-- The object made by `three_stacks<int>(wrapping_capacity)`: the array
that was allocated has two elements. -/
def wrapped_new : three_stacks Int :=
  (create wrapping_capacity (fun _ => (0 : Int))).get rfl

/-- The object `wrapped_new` after `push(0, 10)` and `push(0, 20)`. -/
def wrapped_two : three_stacks Int :=
  (run wrapped_new [.push 0 10, .push 0 20]).toOption.get rfl

/-- The properties every reachable state has. -/
structure inv (s : three_stacks T) : Prop where
  cap_lt : s.max_stack_size_ < SIZE_MOD
  len_eq : s.values_.length = size_mul 3 s.max_stack_size_
  len_le : s.values_.length ≤ PTRDIFF_MAX
  size_le : ∀ k, s.stack_size_ k ≤ s.max_stack_size_
  live : ∀ k i, i < s.stack_size_ k → slot s.max_stack_size_ k i < s.values_.length

end ThreeStacks

/-!
# build_min_height_tree (src/4.3/solve.cpp)

A shallow embedding of the functions of `solve.cpp`.  A `tree_node*` is the
null pointer or a node owning its two subtrees; the range `[begin, end)` of a
`std::vector<int>` is the list of its values.  A key is an `int`: the keys
are integers, and where the bounds of `int` matter (the default arguments of
`is_ordered_tree`) the keys are required to lie between `INT_MIN` and
`INT_MAX`.  The results of `tree_height` and `count` are `size_t` values at
most the number of nodes, which is less than `2^64` for a tree in memory.
-/

namespace MinHeightTree

/-- The smallest `int` (32 bits). -/
def INT_MIN : Int := -2147483648

/-- The largest `int` (32 bits). -/
def INT_MAX : Int := 2147483647

/-- A binary tree given by a `tree_node*`: the null pointer, or a node with
its key and its two subtrees. -/
inductive tree_node where
  | nullptr : tree_node
  | node (key : Int) (left right : tree_node) : tree_node
  deriving DecidableEq, Repr

/-- The function `build_min_height_tree(begin, end)`, on the values of the
range `[begin, end)`. -/
def build_min_height_tree (values : List Int) : tree_node :=
  if h : values = [] then
    .nullptr
  else
    have hm : values.length / 2 < values.length :=
      Nat.div_lt_self (List.length_pos.mpr h) (by decide)
    .node (values[values.length / 2])
      (build_min_height_tree (values.take (values.length / 2)))
      (build_min_height_tree (values.drop (values.length / 2 + 1)))
termination_by values.length
decreasing_by
  · simp only [List.length_take]; omega
  · simp only [List.length_drop]; omega

/-- The function `tree_height`. -/
def tree_height : tree_node → Nat
  | .nullptr => 0
  | .node _ left right => 1 + max (tree_height left) (tree_height right)

/-- The function `is_ordered_tree(root, min_allowed, max_allowed)`. -/
def is_ordered_tree : tree_node → Int → Int → Bool
  | .nullptr, _, _ => true
  | .node key left right, min_allowed, max_allowed =>
    if key < min_allowed || key > max_allowed then false
    else is_ordered_tree left min_allowed key && is_ordered_tree right key max_allowed

/-- The function `count(root, x)`. -/
def count : tree_node → Int → Nat
  | .nullptr, _ => 0
  | .node key left right, x => (if key = x then 1 else 0) + count left x + count right x

/-- The keys of a tree, left subtree first, then the root, then the right
subtree. -/
def keys : tree_node → List Int
  | .nullptr => []
  | .node key left right => keys left ++ key :: keys right

/-- The number of nodes of a tree. -/
def node_count : tree_node → Nat
  | .nullptr => 0
  | .node _ left right => node_count left + 1 + node_count right

/-- The notion "ordered" of the note at the top of `solve.cpp`: for every node,
all keys of its left subtree are smaller than or equal to its key and all
keys of its right subtree are larger than or equal to its key. -/
def ordered : tree_node → Prop
  | .nullptr => True
  | .node key left right =>
    (∀ x ∈ keys left, x ≤ key) ∧ (∀ x ∈ keys right, key ≤ x) ∧ ordered left ∧ ordered right

/-- At every node the heights of the two subtrees differ by at most 1. -/
def balanced : tree_node → Prop
  | .nullptr => True
  | .node _ left right =>
    tree_height left ≤ tree_height right + 1 ∧ tree_height right ≤ tree_height left + 1 ∧
      balanced left ∧ balanced right

/-- The height `floor(log2(n)) + 1` of the comment in `main`, and `0` for
`n = 0`. -/
def min_height (n : Nat) : Nat := if n = 0 then 0 else Nat.log 2 n + 1

/-- All keys of a tree are values of the type `int`. -/
def int_keys (t : tree_node) : Prop := ∀ x ∈ keys t, INT_MIN ≤ x ∧ x ≤ INT_MAX

end MinHeightTree

namespace ThreeStacks

variable {T : Type}

/-! ## Arithmetic of the indices -/

theorem push_index_eq (n : Nat) (k : Fin 3) (h : Nat) :
    size_add (size_mul k.val n) h = slot n k h := by
  simp only [size_add, size_mul, slot, SIZE_MOD]
  omega

theorem top_index_eq (n : Nat) (k : Fin 3) (h : Nat) (hpos : 0 < h) :
    size_sub (size_add (size_mul k.val n) h) 1 = slot n k (h - 1) := by
  simp only [size_sub, size_add, size_mul, slot, SIZE_MOD]
  omega

/-- When an element of stack 1 or 2 lies inside the array, `3*n` did not
overflow. -/
theorem no_overflow_of_upper_slot (n : Nat) (k : Fin 3) (hn : n < SIZE_MOD)
    (hlen : size_mul 3 n ≤ PTRDIFF_MAX) (hk : k ≠ 0)
    (hslot : slot n k 0 < size_mul 3 n) : 3 * n < SIZE_MOD := by
  simp only [size_mul, slot, SIZE_MOD, PTRDIFF_MAX] at *
  obtain ⟨kv, hkv⟩ := k
  have hk' : kv ≠ 0 := fun h => hk (by subst h; rfl)
  have h3 : 3 * n / 18446744073709551616 < 3 := Nat.div_lt_of_lt_mul (by omega)
  have h2 : 2 * n / 18446744073709551616 < 2 := Nat.div_lt_of_lt_mul (by omega)
  have hq3 : 3 * n / 18446744073709551616 = 0 ∨ 3 * n / 18446744073709551616 = 1 ∨
      3 * n / 18446744073709551616 = 2 := by omega
  have hq2 : 2 * n / 18446744073709551616 = 0 ∨ 2 * n / 18446744073709551616 = 1 := by omega
  have hkv' : kv = 1 ∨ kv = 2 := by omega
  rcases hkv' with rfl | rfl <;> rcases hq3 with h | h | h <;> rcases hq2 with h' | h' <;>
    simp only [Nat.add_zero, one_mul] at hslot <;> omega

theorem inv_create (n : Nat) (junk : Nat → T) (s : three_stacks T)
    (hn : n < SIZE_MOD) (hs : create n junk = some s) : inv s := by
  unfold create at hs
  split at hs
  · cases hs
    constructor <;> simp_all
  · cases hs

/-- What `push` does, case by case. -/
theorem push_cases (s : three_stacks T) (k : Fin 3) (v : T) :
    (s.stack_size_ k = s.max_stack_size_ ∧ push s k v = .ok (s, false)) ∨
    (s.stack_size_ k ≠ s.max_stack_size_ ∧
      slot s.max_stack_size_ k (s.stack_size_ k) < s.values_.length ∧
      push s k v = .ok ({ s with
        values_ := s.values_.set (slot s.max_stack_size_ k (s.stack_size_ k)) v
        stack_size_ := Function.update s.stack_size_ k (size_add (s.stack_size_ k) 1) },
        true)) ∨
    (s.stack_size_ k ≠ s.max_stack_size_ ∧
      ¬ slot s.max_stack_size_ k (s.stack_size_ k) < s.values_.length ∧
      push s k v = .error .out_of_bounds) := by
  unfold push
  simp only [push_index_eq]
  by_cases h1 : s.stack_size_ k = s.max_stack_size_
  · left; simp [h1]
  · by_cases h2 : slot s.max_stack_size_ k (s.stack_size_ k) < s.values_.length
    · right; left; simp [h1, h2]
    · right; right; simp [h1, h2]

theorem inv_push (s s' : three_stacks T) (k : Fin 3) (v : T) (b : Bool)
    (hs : inv s) (hp : push s k v = .ok (s', b)) : inv s' := by
  rcases push_cases s k v with ⟨_, h⟩ | ⟨hne, hlt, h⟩ | ⟨_, _, h⟩
  · rw [h] at hp; cases hp; exact hs
  · rw [h] at hp; cases hp
    have hle := hs.size_le k
    have hcap := hs.cap_lt
    have hinc : size_add (s.stack_size_ k) 1 = s.stack_size_ k + 1 := by
      simp only [size_add, SIZE_MOD] at *; omega
    refine ⟨hs.cap_lt, ?_, ?_, ?_, ?_⟩
    · simpa using hs.len_eq
    · simpa using hs.len_le
    · intro j
      by_cases hj : j = k
      · subst hj; simp only [Function.update_same, hinc]; omega
      · simpa [Function.update_noteq hj] using hs.size_le j
    · intro j i hi
      simp only [List.length_set]
      by_cases hj : j = k
      · subst hj
        simp only [Function.update_same, hinc] at hi
        by_cases hi' : i = s.stack_size_ j
        · subst hi'; exact hlt
        · exact hs.live j i (by omega)
      · simp only [Function.update_noteq hj] at hi
        exact hs.live j i hi
  · rw [h] at hp; cases hp

theorem inv_pop (s : three_stacks T) (k : Fin 3) (hs : inv s) : inv (pop s k) := by
  unfold pop
  split
  · exact hs
  · rename_i hne
    have hle := hs.size_le k
    have hcap := hs.cap_lt
    have hdec : size_sub (s.stack_size_ k) 1 = s.stack_size_ k - 1 := by
      simp only [size_sub, SIZE_MOD] at *; omega
    refine ⟨hs.cap_lt, hs.len_eq, hs.len_le, ?_, ?_⟩
    · intro j
      by_cases hj : j = k
      · subst hj; simp only [Function.update_same, hdec]; omega
      · simpa [Function.update_noteq hj] using hs.size_le j
    · intro j i hi
      by_cases hj : j = k
      · subst hj
        simp only [Function.update_same, hdec] at hi
        exact hs.live j i (by omega)
      · simp only [Function.update_noteq hj] at hi
        exact hs.live j i hi

theorem reachable_inv (n : Nat) (s : three_stacks T) (h : reachable n s) : inv s := by
  induction h with
  | init junk s hn hs => exact inv_create n junk s hn hs
  | step_push s s' k v b _ hp ih => exact inv_push s s' k v b ih hp
  | step_pop s k _ ih => exact inv_pop s k ih

theorem push_max (s s' : three_stacks T) (k : Fin 3) (v : T) (b : Bool)
    (hp : push s k v = .ok (s', b)) : s'.max_stack_size_ = s.max_stack_size_ := by
  rcases push_cases s k v with ⟨_, h⟩ | ⟨_, _, h⟩ | ⟨_, _, h⟩ <;> rw [h] at hp <;> cases hp <;> rfl

theorem pop_max (s : three_stacks T) (k : Fin 3) :
    (pop s k).max_stack_size_ = s.max_stack_size_ := by
  unfold pop; split <;> rfl

theorem pop_values (s : three_stacks T) (k : Fin 3) : (pop s k).values_ = s.values_ := by
  unfold pop; split <;> rfl

theorem reachable_max (n : Nat) (s : three_stacks T) (h : reachable n s) :
    s.max_stack_size_ = n := by
  induction h with
  | init junk s hn hs =>
    unfold create at hs
    split at hs
    · cases hs; rfl
    · cases hs
  | step_push s s' k v b _ hp ih => rw [push_max s s' k v b hp, ih]
  | step_pop s k _ ih => rw [pop_max, ih]

theorem reachable_run (n : Nat) (s s' : three_stacks T) (cs : List (call T))
    (h : reachable n s) (hr : run s cs = .ok s') : reachable n s' := by
  induction cs generalizing s with
  | nil => simp only [run] at hr; cases hr; exact h
  | cons c cs ih =>
    cases c with
    | push k v =>
      simp only [run] at hr
      split at hr
      · rename_i s1 b hp
        exact ih s1 (reachable.step_push s s1 k v b h hp) hr
      · cases hr
    | pop k =>
      simp only [run] at hr
      exact ih (pop s k) (reachable.step_pop s k h) hr

/-- What `top` does, with the index written as a slot. -/
theorem top_eq (s : three_stacks T) (k : Fin 3) :
    top s k =
      if s.stack_size_ k = 0 then .error .assertion_failed
      else match s.values_[slot s.max_stack_size_ k (s.stack_size_ k - 1)]? with
        | some v => .ok v
        | none => .error .out_of_bounds := by
  unfold top empty
  by_cases h : s.stack_size_ k = 0
  · simp [h]
  · have hpos : 0 < s.stack_size_ k := Nat.pos_of_ne_zero h
    simp [h, top_index_eq _ _ _ hpos]

theorem size_sub_one_lt (h : Nat) (hpos : 0 < h) : size_sub h 1 < h := by
  simp only [size_sub, SIZE_MOD]
  omega

theorem pop_size_self (s : three_stacks T) (k : Fin 3) :
    (pop s k).stack_size_ k = if s.stack_size_ k = 0 then 0 else size_sub (s.stack_size_ k) 1 := by
  unfold pop
  split
  · rename_i h; exact h
  · simp

theorem pop_size_other (s : three_stacks T) (j k : Fin 3) (hjk : j ≠ k) :
    (pop s j).stack_size_ k = s.stack_size_ k := by
  unfold pop
  split
  · rfl
  · simp [Function.update_noteq (Ne.symm hjk)]

/-- What is read from stack `k` depends only on the capacity, on the height
of stack `k` and on the slots below that height. -/
theorem drain_congr (k : Fin 3) (m : Nat) :
    ∀ s1 s2 : three_stacks T, s1.max_stack_size_ = s2.max_stack_size_ →
      s1.stack_size_ k = s2.stack_size_ k →
      (∀ i, i < s1.stack_size_ k →
        s1.values_[slot s1.max_stack_size_ k i]? = s2.values_[slot s1.max_stack_size_ k i]?) →
      drain s1 k m = drain s2 k m := by
  induction m with
  | zero => intros; rfl
  | succ m ih =>
    intro s1 s2 hmax hsz hv
    simp only [drain]
    congr 1
    · rw [top_eq, top_eq, ← hsz, ← hmax]
      by_cases h0 : s1.stack_size_ k = 0
      · simp [h0]
      · simp only [h0, if_false]
        rw [hv _ (by omega)]
    · apply ih
      · rw [pop_max, pop_max, hmax]
      · rw [pop_size_self, pop_size_self, hsz]
      · intro i hi
        rw [pop_values, pop_values, pop_max]
        apply hv
        rw [pop_size_self] at hi
        by_cases h0 : s1.stack_size_ k = 0
        · simp [h0] at hi
        · simp only [h0, if_false] at hi
          have := size_sub_one_lt _ (Nat.pos_of_ne_zero h0)
          omega

/-- Without overflow of `3*n` a slot is computed without wrapping. -/
theorem slot_eq_of_no_overflow (n : Nat) (k : Fin 3) (i : Nat) (hno : 3 * n < SIZE_MOD)
    (hi : i ≤ n) : slot n k i = k.val * n + i := by
  obtain ⟨kv, hkv⟩ := k
  have hk3 : kv = 0 ∨ kv = 1 ∨ kv = 2 := by omega
  apply Nat.mod_eq_of_lt
  simp only [SIZE_MOD] at *
  rcases hk3 with rfl | rfl | rfl <;> omega

/-- In a state with the invariant, the slot `push(j, _)` writes is none of
the slots that hold an element of another stack `k`. -/
theorem push_slot_ne (s : three_stacks T) (hs : inv s) (j k : Fin 3) (hjk : j ≠ k)
    (hfull : s.stack_size_ j ≠ s.max_stack_size_)
    (hlt : slot s.max_stack_size_ j (s.stack_size_ j) < s.values_.length)
    (i : Nat) (hi : i < s.stack_size_ k) :
    slot s.max_stack_size_ j (s.stack_size_ j) ≠ slot s.max_stack_size_ k i := by
  have hcap := hs.cap_lt
  have hlen := hs.len_le
  have hleq := hs.len_eq
  have hj := hs.size_le j
  have hk := hs.size_le k
  have hk0 : slot s.max_stack_size_ k 0 < s.values_.length := hs.live k 0 (by omega)
  have hj0 : slot s.max_stack_size_ j 0 < s.values_.length := by
    by_cases h0 : s.stack_size_ j = 0
    · rw [h0] at hlt; exact hlt
    · exact hs.live j 0 (by omega)
  rw [hleq] at hlen hk0 hj0
  have hno : 3 * s.max_stack_size_ < SIZE_MOD := by
    by_cases hk' : k = 0
    · have hj' : j ≠ 0 := fun h => hjk (h.trans hk'.symm)
      exact no_overflow_of_upper_slot _ j hcap hlen hj' hj0
    · exact no_overflow_of_upper_slot _ k hcap hlen hk' hk0
  rw [slot_eq_of_no_overflow _ j _ hno hj, slot_eq_of_no_overflow _ k _ hno (by omega)]
  obtain ⟨jv, hjv⟩ := j
  obtain ⟨kv, hkv⟩ := k
  have hne : jv ≠ kv := fun h => hjk (by subst h; rfl)
  have hj3 : jv = 0 ∨ jv = 1 ∨ jv = 2 := by omega
  have hk3 : kv = 0 ∨ kv = 1 ∨ kv = 2 := by omega
  rcases hj3 with rfl | rfl | rfl <;> rcases hk3 with rfl | rfl | rfl <;>
    first | exact absurd rfl hne | (simp only at *; omega)

theorem reachable_demo_new : reachable 2 demo_new :=
  reachable.init (fun _ => 0) demo_new (by decide) rfl

theorem reachable_demo_used : reachable 2 demo_used :=
  reachable_run 2 demo_new demo_used [.push 0 10, .push 0 20, .push 1 99]
    reachable_demo_new rfl

theorem reachable_wrapped_new : reachable wrapping_capacity wrapped_new :=
  reachable.init (fun _ => 0) wrapped_new (by decide) rfl

theorem reachable_wrapped_two : reachable wrapping_capacity wrapped_two :=
  reachable_run _ wrapped_new wrapped_two [.push 0 10, .push 0 20]
    reachable_wrapped_new rfl

/-- Two elements of one stack have different slots. -/
theorem slot_ne_of_lt (n : Nat) (k : Fin 3) (i h : Nat) (hi : i < h) (hh : h < SIZE_MOD) :
    slot n k h ≠ slot n k i := by
  intro heq
  unfold slot at heq
  have hsub := Nat.sub_mod_eq_zero_of_mod_eq heq
  have hd : k.val * n + h - (k.val * n + i) = h - i := by omega
  rw [hd, Nat.mod_eq_of_lt (by omega)] at hsub
  omega

/-- A `push(k, v)` that returns `true` in a state with the invariant: `top`
then reads `v`, the size is one more, and after one `pop(k)` stack `k` reads
as before the push. -/
theorem push_true_props (s s1 : three_stacks T) (hinv : inv s) (k : Fin 3) (v : T)
    (hp : push s k v = .ok (s1, true)) :
    top s1 k = .ok v ∧ size s1 k = size s k + 1 ∧
    ∀ m, drain (pop s1 k) k m = drain s k m := by
  have hle := hinv.size_le k
  have hcap := hinv.cap_lt
  rcases push_cases s k v with ⟨_, h⟩ | ⟨hne, hslot, h⟩ | ⟨_, _, h⟩
  · rw [h] at hp; cases hp
  · rw [h] at hp; cases hp
    have hlt : s.stack_size_ k < s.max_stack_size_ := lt_of_le_of_ne hle hne
    have hinc : size_add (s.stack_size_ k) 1 = s.stack_size_ k + 1 := by
      simp only [size_add, SIZE_MOD] at *; omega
    have hdec : size_sub (s.stack_size_ k + 1) 1 = s.stack_size_ k := by
      simp only [size_sub, SIZE_MOD] at *; omega
    refine ⟨?_, ?_, ?_⟩
    · rw [top_eq]
      simp only [Function.update_same, hinc, Nat.add_sub_cancel]
      rw [if_neg (by omega), List.getElem?_set_self hslot]
    · simp [size, hinc]
    · intro m
      apply drain_congr
      · rw [pop_max]
      · rw [pop_size_self]
        simp only [Function.update_same, hinc, hdec]
        rw [if_neg (by omega)]
      · intro i hi
        rw [pop_size_self] at hi
        simp only [Function.update_same, hinc, hdec] at hi
        rw [if_neg (by omega)] at hi
        rw [pop_values, pop_max]
        exact List.getElem?_set_ne
          (slot_ne_of_lt _ k i _ hi (by simp only [SIZE_MOD] at *; omega))
  · rw [h] at hp; cases hp

/-- Without overflow of `3*n`, `push` on a stack that is not full returns
`true`. -/
theorem push_returns_of_no_overflow (n : Nat) (s : three_stacks T) (hs : reachable n s)
    (hno : 3 * n < SIZE_MOD) (k : Fin 3) (v : T) (hlt : size s k < n) :
    ∃ s', push s k v = .ok (s', true) := by
  have hinv := reachable_inv n s hs
  have hmax := reachable_max n s hs
  unfold size at hlt
  have hslot : slot s.max_stack_size_ k (s.stack_size_ k) < s.values_.length := by
    rw [hinv.len_eq, hmax, slot_eq_of_no_overflow n k _ hno (by omega)]
    simp only [size_mul]
    rw [Nat.mod_eq_of_lt hno]
    obtain ⟨kv, hkv⟩ := k
    have hk3 : kv = 0 ∨ kv = 1 ∨ kv = 2 := by omega
    rcases hk3 with rfl | rfl | rfl <;> (simp only at *; omega)
  rcases push_cases s k v with ⟨h, _⟩ | ⟨_, _, h⟩ | ⟨_, h, _⟩
  · omega
  · exact ⟨_, h⟩
  · exact absurd hslot h

/-- Without overflow of `3*n`, `push` on a stack that is not full returns
`true`, `top` then reads the pushed value, and the size is one more. -/
theorem push_top_size_of_no_overflow (n : Nat) (s : three_stacks T) (hs : reachable n s)
    (hno : 3 * n < SIZE_MOD) (k : Fin 3) (v : T) (hlt : size s k < n) :
    ∃ s', push s k v = .ok (s', true) ∧ top s' k = .ok v ∧ size s' k = size s k + 1 := by
  obtain ⟨s', hp⟩ := push_returns_of_no_overflow n s hs hno k v hlt
  have h := push_true_props s s' (reachable_inv n s hs) k v hp
  exact ⟨s', hp, h.1, h.2.1⟩

/-- Without overflow of `3*n`, pushing the values `vs` on a stack with room
for them succeeds, and draining that stack then reads the values last pushed
first, followed by what draining read before the pushes. -/
theorem lifo_of_no_overflow (n : Nat) (hno : 3 * n < SIZE_MOD) (k : Fin 3) (vs : List T) :
    ∀ s : three_stacks T, reachable n s → size s k + vs.length ≤ n →
      ∃ s', run s (vs.map (call.push k)) = .ok s' ∧
        ∀ m, drain s' k (vs.length + m) = vs.reverse.map Except.ok ++ drain s k m := by
  induction vs with
  | nil => intro s _ _; exact ⟨s, rfl, by simp⟩
  | cons v vs ih =>
    intro s hs hfit
    simp only [List.length_cons] at hfit
    obtain ⟨s1, hp⟩ := push_returns_of_no_overflow n s hs hno k v (by omega)
    obtain ⟨htop, hsize, hdrain⟩ := push_true_props s s1 (reachable_inv n s hs) k v hp
    obtain ⟨s', hrun, hall⟩ := ih s1 (reachable.step_push s s1 k v true hs hp) (by omega)
    refine ⟨s', ?_, ?_⟩
    · simp only [List.map_cons, run, hp, hrun]
    · intro m
      have hd1 : drain s1 k (m + 1) = Except.ok v :: drain s k m := by
        simp only [drain, htop, hdrain]
      simp only [List.length_cons, List.reverse_cons, List.map_append, List.map_cons,
        List.map_nil, List.append_assoc, List.singleton_append]
      rw [← hd1, ← hall (m + 1), Nat.add_assoc, Nat.add_comm 1 m]

/-- In a state with the invariant, `i` calls of `pop(k)` on a stack of at
least `i` values take `i` from its size. -/
theorem pop_times_size (k : Fin 3) (i : Nat) :
    ∀ s : three_stacks T, inv s → i ≤ size s k →
      size (pop_times s k i) k = size s k - i := by
  induction i with
  | zero => intro s _ _; rfl
  | succ i ih =>
    intro s hinv hi
    have hle := hinv.size_le k
    have hcap := hinv.cap_lt
    unfold size at hi
    have hpop : size (pop s k) k = size s k - 1 := by
      unfold size
      rw [pop_size_self, if_neg (by omega)]
      simp only [size_sub, SIZE_MOD] at *
      omega
    simp only [pop_times]
    rw [ih (pop s k) (inv_pop s k hinv) (by rw [hpop]; unfold size; omega), hpop]
    omega

/-- A `push(j, _)` that returns leaves the size of another stack as it was. -/
theorem push_size_other (s s' : three_stacks T) (j k : Fin 3) (hjk : j ≠ k) (v : T)
    (b : Bool) (hp : push s j v = .ok (s', b)) : size s' k = size s k := by
  rcases push_cases s j v with ⟨_, h⟩ | ⟨_, _, h⟩ | ⟨_, _, h⟩
  · rw [h] at hp; cases hp; rfl
  · rw [h] at hp; cases hp
    exact Function.update_noteq (Ne.symm hjk) _ _
  · rw [h] at hp; cases hp

/-- A `push` on a stack whose size is the capacity returns `false` in the
same state. -/
theorem push_at_capacity (s : three_stacks T) (k : Fin 3) (v : T)
    (hfull : s.stack_size_ k = s.max_stack_size_) : push s k v = .ok (s, false) := by
  simp [push, hfull]

/-- Without overflow of `3*n`, the index `push(k, _)` writes on a stack that
is not full and the index `top(k)` reads on a stack that is not empty lie in
`[k*n, (k+1)*n)`, inside `[0, 3*n)`. -/
theorem partition_of_no_overflow (n : Nat) (hno : 3 * n < SIZE_MOD) (k : Fin 3) (h : Nat)
    (hh : h ≤ n) :
    (h < n → k.val * n ≤ size_add (size_mul k.val n) h ∧
      size_add (size_mul k.val n) h < (k.val + 1) * n ∧
      size_add (size_mul k.val n) h < 3 * n) ∧
    (0 < h → k.val * n ≤ size_sub (size_add (size_mul k.val n) h) 1 ∧
      size_sub (size_add (size_mul k.val n) h) 1 < (k.val + 1) * n ∧
      size_sub (size_add (size_mul k.val n) h) 1 < 3 * n) := by
  constructor
  · intro hlt
    rw [push_index_eq, slot_eq_of_no_overflow n k h hno hh]
    obtain ⟨kv, hkv⟩ := k
    have hk3 : kv = 0 ∨ kv = 1 ∨ kv = 2 := by omega
    rcases hk3 with rfl | rfl | rfl <;> (simp only at *; omega)
  · intro hpos
    rw [top_index_eq n k h hpos, slot_eq_of_no_overflow n k (h - 1) hno (by omega)]
    obtain ⟨kv, hkv⟩ := k
    have hk3 : kv = 0 ∨ kv = 1 ∨ kv = 2 := by omega
    rcases hk3 with rfl | rfl | rfl <;> (simp only at *; omega)

/-! ## The claims -/

/-- C1: in a reachable state, for two distinct stacks `j` and `k`, a call
`push(j, v)` that returns and a call `pop(j)` leave `size(k)` as it was and
leave everything that rounds of `top(k)` then `pop(k)` read from stack `k`
as it was. -/
theorem independence (n : Nat) (s : three_stacks T) (hs : reachable n s)
    (j k : Fin 3) (hjk : j ≠ k) (v : T) :
    (∀ s' b, push s j v = .ok (s', b) →
      size s' k = size s k ∧ ∀ m, drain s' k m = drain s k m) ∧
    (size (pop s j) k = size s k ∧ ∀ m, drain (pop s j) k m = drain s k m) := by
  have hinv := reachable_inv n s hs
  constructor
  · intro s' b hp
    rcases push_cases s j v with ⟨_, h⟩ | ⟨hne, hlt, h⟩ | ⟨_, _, h⟩
    · rw [h] at hp; cases hp; exact ⟨rfl, fun _ => rfl⟩
    · rw [h] at hp; cases hp
      have hsz : Function.update s.stack_size_ j (size_add (s.stack_size_ j) 1) k
          = s.stack_size_ k := Function.update_noteq (Ne.symm hjk) _ _
      refine ⟨hsz, fun m => drain_congr k m _ s rfl hsz ?_⟩
      intro i hi
      simp only [hsz] at hi
      exact List.getElem?_set_ne (push_slot_ne s hinv j k hjk hne hlt i hi)
    · rw [h] at hp; cases hp
  · refine ⟨pop_size_other s j k hjk, fun m => drain_congr k m _ s (pop_max s j)
      (pop_size_other s j k hjk) ?_⟩
    intro i _
    rw [pop_values]

/-- The theorem `independence` at `demo_used`, for the stacks 0 and 1. -/
theorem independence_witness :
    reachable 2 demo_used ∧ (2 : Fin 3) ≠ 1 ∧
    ((∀ s' b, push demo_used 2 7 = .ok (s', b) →
      size s' 1 = size demo_used 1 ∧ ∀ m, drain s' 1 m = drain demo_used 1 m) ∧
    (size (pop demo_used 2) 1 = size demo_used 1 ∧
      ∀ m, drain (pop demo_used 2) 1 m = drain demo_used 1 m)) :=
  ⟨reachable_demo_used, by decide,
    independence 2 demo_used reachable_demo_used 2 1 (by decide) 7⟩

/-- C3: in every state, `push(k, v)` on a stack whose size is the capacity
returns `false` and the state after the call is the state before it. -/
theorem push_full_unchanged (s : three_stacks T) (k : Fin 3) (v : T)
    (hfull : size s k = s.max_stack_size_) : push s k v = .ok (s, false) := by
  unfold size at hfull
  simp [push, hfull]

/-- The theorem `push_full_unchanged` at `demo_used`, whose stack 0 is full. -/
theorem push_full_unchanged_witness :
    size demo_used 0 = demo_used.max_stack_size_ ∧
    push demo_used 0 30 = .ok (demo_used, false) :=
  ⟨by decide, push_full_unchanged demo_used 0 30 (by decide)⟩

/-- C4: in every state reachable from the constructor called with `n`, the
size of each stack is at least 0 and at most `n`, and it is a `size_t`
value that did not wrap. -/
theorem capacity_invariant (n : Nat) (s : three_stacks T) (hs : reachable n s)
    (k : Fin 3) : 0 ≤ size s k ∧ size s k ≤ n ∧ size s k < SIZE_MOD := by
  have hinv := reachable_inv n s hs
  have hmax := reachable_max n s hs
  have h1 := hinv.size_le k
  have h2 := hinv.cap_lt
  unfold size
  omega

/-- The theorem `capacity_invariant` at `demo_used`. -/
theorem capacity_invariant_witness :
    reachable 2 demo_used ∧
    (0 ≤ size demo_used 0 ∧ size demo_used 0 ≤ 2 ∧ size demo_used 0 < SIZE_MOD) :=
  ⟨reachable_demo_used, capacity_invariant 2 demo_used reachable_demo_used 0⟩

/-- C2 (at an input where the code fails): `wrapped_two` is reachable for
the capacity `wrapping_capacity`, its array has the two elements that
`new T[3*n]` allocated, stack 0 has size 2, less than the capacity, and
`push(0, 30)` writes outside the array instead of returning `true`. -/
theorem push_faults_when_allocation_wrapped :
    reachable wrapping_capacity wrapped_two ∧
    wrapped_two.values_.length = 2 ∧
    size wrapped_two 0 = 2 ∧
    size wrapped_two 0 < wrapped_two.max_stack_size_ ∧
    push wrapped_two 0 30 = .error .out_of_bounds :=
  ⟨reachable_wrapped_two, by decide, by decide, by decide, rfl⟩

/-- C6: in every state, `pop(k)` on a stack of size 0 returns the state it
was called in, and `empty(k)` is true after it. -/
theorem pop_empty_noop (s : three_stacks T) (k : Fin 3) (hzero : size s k = 0) :
    pop s k = s ∧ empty (pop s k) k = true := by
  unfold size at hzero
  simp [pop, empty, hzero]

/-- The theorem `pop_empty_noop` at `demo_used`, whose stack 2 is empty. -/
theorem pop_empty_noop_witness :
    size demo_used 2 = 0 ∧ (pop demo_used 2 = demo_used ∧ empty (pop demo_used 2) 2 = true) :=
  ⟨by decide, pop_empty_noop demo_used 2 (by decide)⟩

/-- C5 (at an input where the code fails): on the new object of capacity
`wrapping_capacity`, where three more values fit stack 0, the calls
`push(0, 10)`, `push(0, 20)`, `push(0, 30)` do not all return: the third
writes outside the array of two elements. -/
theorem lifo_faults_when_allocation_wrapped :
    reachable wrapping_capacity wrapped_new ∧
    size wrapped_new 0 + [(10 : Int), 20, 30].length ≤ wrapping_capacity ∧
    run wrapped_new ([(10 : Int), 20, 30].map (call.push 0)) = .error .out_of_bounds :=
  ⟨reachable_wrapped_new, by decide, rfl⟩

/-- C7: in a reachable state with `size(k) = s`, after `i < s` calls of
`pop(k)` the size is `s - i` and the stack is not empty, after `s` calls
`empty(k)` is true, and it is still true after one more `pop(k)`. -/
theorem pop_until_empty (n : Nat) (s : three_stacks T) (hs : reachable n s) (k : Fin 3) :
    (∀ i, i < size s k →
      size (pop_times s k i) k = size s k - i ∧ empty (pop_times s k i) k = false) ∧
    empty (pop_times s k (size s k)) k = true ∧
    empty (pop (pop_times s k (size s k)) k) k = true := by
  have hinv := reachable_inv n s hs
  have hzero : size (pop_times s k (size s k)) k = 0 := by
    rw [pop_times_size k _ s hinv (le_refl _)]; omega
  refine ⟨?_, ?_, ?_⟩
  · intro i hi
    have h := pop_times_size k i s hinv (by omega)
    refine ⟨h, ?_⟩
    unfold size at h hi
    simp only [empty, h, beq_eq_false_iff_ne, ne_eq]
    omega
  · have h : (pop_times s k (size s k)).stack_size_ k = 0 := hzero
    simp [empty, h]
  · exact (pop_empty_noop _ k hzero).2

/-- The theorem `pop_until_empty` at `demo_used` and its stack 0 of two values. -/
theorem pop_until_empty_witness :
    reachable 2 demo_used ∧
    ((∀ i, i < size demo_used 0 →
      size (pop_times demo_used 0 i) 0 = size demo_used 0 - i ∧
        empty (pop_times demo_used 0 i) 0 = false) ∧
    empty (pop_times demo_used 0 (size demo_used 0)) 0 = true ∧
    empty (pop (pop_times demo_used 0 (size demo_used 0)) 0) 0 = true) :=
  ⟨reachable_demo_used, pop_until_empty 2 demo_used reachable_demo_used 0⟩

/-- C8: in a reachable state, the assertion of `top(k)` holds and the index
it reads, `k*max_stack_size_ + stack_size_[k] - 1`, is inside the array (and
below `3*n`) exactly when `size(k) > 0`; `top(k)` returns a value exactly
when `size(k) > 0`; and when `size(k) = 0` the assertion fails. -/
theorem top_defined_iff (n : Nat) (s : three_stacks T) (hs : reachable n s) (k : Fin 3) :
    ((empty s k = false ∧
        size_sub (size_add (size_mul k.val s.max_stack_size_) (s.stack_size_ k)) 1
          < s.values_.length ∧
        size_sub (size_add (size_mul k.val s.max_stack_size_) (s.stack_size_ k)) 1
          < 3 * n) ↔ 0 < size s k) ∧
    ((∃ v, top s k = .ok v) ↔ 0 < size s k) ∧
    (size s k = 0 → top s k = .error .assertion_failed) := by
  have hinv := reachable_inv n s hs
  have hmax := reachable_max n s hs
  have hlen : s.values_.length ≤ 3 * n := by
    rw [hinv.len_eq, hmax]; exact Nat.mod_le _ _
  unfold size
  refine ⟨?_, ?_, ?_⟩
  · constructor
    · rintro ⟨he, _, _⟩
      simp only [empty, beq_eq_false_iff_ne, ne_eq] at he
      omega
    · intro hpos
      have hlive := hinv.live k (s.stack_size_ k - 1) (by omega)
      rw [top_index_eq _ _ _ hpos]
      refine ⟨?_, hlive, by omega⟩
      simp only [empty, beq_eq_false_iff_ne, ne_eq]
      omega
  · rw [top_eq]
    constructor
    · rintro ⟨v, hv⟩
      by_cases h0 : s.stack_size_ k = 0
      · simp [h0] at hv
      · omega
    · intro hpos
      have hlive := hinv.live k (s.stack_size_ k - 1) (by omega)
      rw [if_neg (by omega)]
      obtain ⟨v, hv⟩ : ∃ v, s.values_[slot s.max_stack_size_ k (s.stack_size_ k - 1)]? = some v :=
        ⟨_, List.getElem?_eq_getElem hlive⟩
      exact ⟨v, by rw [hv]⟩
  · intro h0
    rw [top_eq, if_pos h0]

/-- The theorem `top_defined_iff` at `demo_used` and its stack 1. -/
theorem top_defined_iff_witness :
    reachable 2 demo_used ∧
    (((empty demo_used 1 = false ∧
        size_sub (size_add (size_mul (1 : Fin 3).val demo_used.max_stack_size_)
          (demo_used.stack_size_ 1)) 1 < demo_used.values_.length ∧
        size_sub (size_add (size_mul (1 : Fin 3).val demo_used.max_stack_size_)
          (demo_used.stack_size_ 1)) 1 < 3 * 2) ↔ 0 < size demo_used 1) ∧
    ((∃ v, top demo_used 1 = .ok v) ↔ 0 < size demo_used 1) ∧
    (size demo_used 1 = 0 → top demo_used 1 = .error .assertion_failed)) :=
  ⟨reachable_demo_used, top_defined_iff 2 demo_used reachable_demo_used 1⟩

/-- C9 (at an input where the code fails): in the reachable state
`wrapped_two` the model has room on stack 0, so its push returns `true`,
while `push(0, 30)` of the code writes outside the array. -/
theorem refinement_fails_when_allocation_wrapped :
    reachable wrapping_capacity wrapped_two ∧
    (model_push (abstraction wrapped_two) 0 30).2 = true ∧
    push wrapped_two 0 30 = .error .out_of_bounds :=
  ⟨reachable_wrapped_two, by decide, rfl⟩

/-- C10: on a new object of capacity 2, whatever the array holds at first,
all stacks are empty, then: `push(0,10)` returns true and `size(0)` is 1;
`push(0,20)` returns true and `size(0)` is 2; `push(0,30)` returns false and
`size(0)` stays 2; `top(0)` is 20; after `pop(0)`, `top(0)` is 10 and
`size(0)` is 1; `push(1,99)` returns true, `size(0)` is still 1 and
`size(1)` is 1. -/
theorem scenario_capacity_two (junk : Nat → Int) :
    ∃ s0 s1 s2 s3 s5 : three_stacks Int,
      create 2 junk = some s0 ∧
      size s0 0 = 0 ∧ size s0 1 = 0 ∧ size s0 2 = 0 ∧
      push s0 0 10 = .ok (s1, true) ∧ size s1 0 = 1 ∧
      push s1 0 20 = .ok (s2, true) ∧ size s2 0 = 2 ∧
      push s2 0 30 = .ok (s3, false) ∧ size s3 0 = 2 ∧
      top s3 0 = .ok 20 ∧
      top (pop s3 0) 0 = .ok 10 ∧ size (pop s3 0) 0 = 1 ∧
      push (pop s3 0) 1 99 = .ok (s5, true) ∧ size s5 0 = 1 ∧ size s5 1 = 1 := by
  have hno : 3 * 2 < SIZE_MOD := by decide
  obtain ⟨s0, h0⟩ : ∃ s0, create 2 junk = some s0 := ⟨_, rfl⟩
  have hz : ∀ k, size s0 k = 0 := by
    intro k
    unfold create at h0
    split at h0
    · cases h0; rfl
    · cases h0
  have r0 : reachable 2 s0 := reachable.init junk s0 (by decide) h0
  obtain ⟨s1, hp1, _, hs1⟩ :=
    push_top_size_of_no_overflow 2 s0 r0 hno 0 10 (by rw [hz]; decide)
  have r1 : reachable 2 s1 := reachable.step_push s0 s1 0 10 true r0 hp1
  have ht1 := (push_true_props s0 s1 (reachable_inv 2 s0 r0) 0 10 hp1).1
  rw [hz] at hs1
  obtain ⟨s2, hp2, ht2, hs2⟩ :=
    push_top_size_of_no_overflow 2 s1 r1 hno 0 20 (by rw [hs1]; decide)
  have r2 : reachable 2 s2 := reachable.step_push s1 s2 0 20 true r1 hp2
  rw [hs1] at hs2
  have hp3 : push s2 0 30 = .ok (s2, false) :=
    push_at_capacity s2 0 30 (by rw [reachable_max 2 s2 r2]; exact hs2)
  have hd := (push_true_props s1 s2 (reachable_inv 2 s1 r1) 0 20 hp2).2.2 1
  simp only [drain, List.cons.injEq, and_true] at hd
  have hsz3 : size (pop s2 0) 0 = 1 := by
    have h := pop_times_size 0 1 s2 (reachable_inv 2 s2 r2) (by rw [hs2]; decide)
    rw [hs2] at h
    exact h
  have r3 : reachable 2 (pop s2 0) := reachable.step_pop s2 0 r2
  have hother : size (pop s2 0) 1 = 0 := by
    have h1 : size (pop s2 0) 1 = size s2 1 := pop_size_other s2 0 1 (by decide)
    rw [h1, push_size_other s1 s2 0 1 (by decide) 20 true hp2,
      push_size_other s0 s1 0 1 (by decide) 10 true hp1, hz]
  obtain ⟨s5, hp5, _, hs5⟩ :=
    push_top_size_of_no_overflow 2 (pop s2 0) r3 hno 1 99 (by rw [hother]; decide)
  have hs50 : size s5 0 = 1 := by
    rw [push_size_other (pop s2 0) s5 1 0 (by decide) 99 true hp5, hsz3]
  rw [hother] at hs5
  exact ⟨s0, s1, s2, s2, s5, h0, hz 0, hz 1, hz 2, hp1, hs1, hp2, hs2, hp3, hs2, ht2,
    by rw [hd, ht1], hsz3, hp5, hs50, hs5⟩

/-- C17 (at an input where the code fails): in the reachable state
`wrapped_two`, of capacity `n = wrapping_capacity`, stack 0 has height 2,
below `n`; the index `push(0, _)` writes is 2, which lies in `[0*n, 1*n)`
and in `[0, 3*n)`, but the array that was allocated has 2 slots, so the
access is outside of it. -/
theorem partition_fails_when_allocation_wrapped :
    reachable wrapping_capacity wrapped_two ∧
    wrapped_two.max_stack_size_ = wrapping_capacity ∧
    wrapped_two.stack_size_ 0 < wrapping_capacity ∧
    size_add (size_mul (0 : Fin 3).val wrapping_capacity) (wrapped_two.stack_size_ 0) = 2 ∧
    (0 : Fin 3).val * wrapping_capacity ≤ 2 ∧
    2 < ((0 : Fin 3).val + 1) * wrapping_capacity ∧
    2 < 3 * wrapping_capacity ∧
    wrapped_two.values_.length = 2 ∧
    ¬ size_add (size_mul (0 : Fin 3).val wrapping_capacity) (wrapped_two.stack_size_ 0)
        < wrapped_two.values_.length :=
  ⟨reachable_wrapped_two, by decide, by decide, by decide, by decide, by decide, by decide,
    by decide, by decide⟩

end ThreeStacks

namespace MinHeightTree

/-! ## Lemmas on `build_min_height_tree` -/

theorem build_nil : build_min_height_tree [] = .nullptr := by
  rw [build_min_height_tree]; simp

theorem middle_lt (values : List Int) (h : values ≠ []) :
    values.length / 2 < values.length :=
  Nat.div_lt_self (List.length_pos.mpr h) (by decide)

theorem build_ne_nil (values : List Int) (h : values ≠ []) :
    build_min_height_tree values =
      .node (values.get ⟨values.length / 2, middle_lt values h⟩)
        (build_min_height_tree (values.take (values.length / 2)))
        (build_min_height_tree (values.drop (values.length / 2 + 1))) := by
  rw [build_min_height_tree]
  simp [h]

/-- A sequence that is not empty is its first half, its middle element and
the rest. -/
theorem split_middle (values : List Int) (h : values ≠ []) :
    values = values.take (values.length / 2) ++
      values.get ⟨values.length / 2, middle_lt values h⟩ ::
        values.drop (values.length / 2 + 1) := by
  have := List.drop_eq_getElem_cons (middle_lt values h)
  rw [List.get_eq_getElem, ← this, List.take_append_drop]

theorem length_take_middle (values : List Int) :
    (values.take (values.length / 2)).length = values.length / 2 := by
  rw [List.length_take]; omega

theorem length_drop_middle (values : List Int) :
    (values.drop (values.length / 2 + 1)).length = values.length - (values.length / 2 + 1) := by
  rw [List.length_drop]

/-- Induction on a sequence along the calls of `build_min_height_tree`. -/
theorem build_induction (P : List Int → Prop) (hnil : P [])
    (hstep : ∀ values : List Int, values ≠ [] →
      P (values.take (values.length / 2)) → P (values.drop (values.length / 2 + 1)) →
      P values) : ∀ values, P values := by
  have main : ∀ n, ∀ values : List Int, values.length = n → P values := by
    intro n
    induction n using Nat.strong_induction_on with
    | _ n ih =>
      intro values hn
      by_cases h : values = []
      · subst h; exact hnil
      · have hm := middle_lt values h
        apply hstep values h
        · exact ih _ (by rw [length_take_middle]; omega) _ rfl
        · exact ih _ (by rw [length_drop_middle]; omega) _ rfl
  exact fun values => main _ values rfl

/-! ## Lemmas on `min_height` -/

theorem min_height_mono {a b : Nat} (h : a ≤ b) : min_height a ≤ min_height b := by
  unfold min_height
  by_cases ha : a = 0
  · simp [ha]
  · have hb : b ≠ 0 := by omega
    simp only [ha, hb, if_false]
    exact Nat.succ_le_succ (Nat.log_mono_right h)

theorem min_height_half (n : Nat) (hn : n ≠ 0) : min_height n = min_height (n / 2) + 1 := by
  unfold min_height
  simp only [hn, if_false]
  by_cases h2 : n / 2 = 0
  · have : n < 2 := by omega
    simp [h2, Nat.log_of_lt this]
  · have : 2 ≤ n := by omega
    simp only [h2, if_false]
    rw [Nat.log_of_one_lt_of_le (by decide) this]

theorem height_build (values : List Int) :
    tree_height (build_min_height_tree values) = min_height values.length := by
  induction values using build_induction with
  | hnil => simp [build_nil, tree_height, min_height]
  | hstep values h ihl ihr =>
    rw [build_ne_nil values h, tree_height, ihl, ihr, length_take_middle, length_drop_middle,
      min_height_half values.length (by simpa using h)]
    have := @min_height_mono (values.length - (values.length / 2 + 1)) (values.length / 2)
      (by omega)
    omega

theorem count_build (values : List Int) (x : Int) :
    count (build_min_height_tree values) x = values.count x := by
  induction values using build_induction with
  | hnil => simp [build_nil, count]
  | hstep values h ihl ihr =>
    rw [build_ne_nil values h, count, ihl, ihr]
    conv_rhs => rw [split_middle values h]
    rw [List.count_append, List.count_cons]
    simp only [beq_iff_eq]
    omega

/-- The tree built from a sorted sequence whose values lie between two
bounds passes `is_ordered_tree` with these bounds. -/
theorem is_ordered_build (values : List Int) :
    ∀ lo hi : Int, values.Pairwise (· ≤ ·) → (∀ x ∈ values, lo ≤ x ∧ x ≤ hi) →
      is_ordered_tree (build_min_height_tree values) lo hi = true := by
  induction values using build_induction with
  | hnil => intro lo hi _ _; simp [build_nil, is_ordered_tree]
  | hstep values h ihl ihr =>
    intro lo hi hsorted hrange
    have hsplit := split_middle values h
    have hmem : values.get ⟨values.length / 2, middle_lt values h⟩ ∈ values :=
      List.get_mem _ _ _
    rw [hsplit, List.pairwise_append, List.pairwise_cons] at hsorted
    obtain ⟨hl, ⟨hmr, hr⟩, hlr⟩ := hsorted
    have hkey := hrange _ hmem
    rw [build_ne_nil values h, is_ordered_tree]
    have hguard : ¬ (values.get ⟨values.length / 2, middle_lt values h⟩ < lo ∨
        values.get ⟨values.length / 2, middle_lt values h⟩ > hi) := by omega
    simp only [Bool.or_eq_true, decide_eq_true_eq, hguard, if_false, Bool.and_eq_true]
    constructor
    · apply ihl lo _ hl
      intro x hx
      exact ⟨(hrange x (List.mem_of_mem_take hx)).1, hlr x hx _ (List.mem_cons_self _ _)⟩
    · apply ihr _ hi hr
      intro x hx
      exact ⟨hmr x hx, (hrange x (List.mem_of_mem_drop hx)).2⟩

theorem node_count_lt_pow (t : tree_node) : node_count t < 2 ^ tree_height t := by
  induction t with
  | nullptr => simp [node_count, tree_height]
  | node key left right ihl ihr =>
    simp only [node_count, tree_height]
    have h1 : 2 ^ tree_height left ≤ 2 ^ max (tree_height left) (tree_height right) :=
      Nat.pow_le_pow_right (by decide) (le_max_left _ _)
    have h2 : 2 ^ tree_height right ≤ 2 ^ max (tree_height left) (tree_height right) :=
      Nat.pow_le_pow_right (by decide) (le_max_right _ _)
    rw [Nat.add_comm 1, Nat.pow_succ]
    omega

theorem min_height_le_height (t : tree_node) : min_height (node_count t) ≤ tree_height t := by
  unfold min_height
  by_cases h0 : node_count t = 0
  · simp [h0]
  · simp only [h0, if_false]
    exact (Nat.lt_pow_iff_log_lt (by decide) h0).mp (node_count_lt_pow t)

/-- What `is_ordered_tree` decides for given bounds: the tree is ordered and
all its keys lie between the bounds. -/
theorem is_ordered_tree_iff (t : tree_node) :
    ∀ lo hi : Int, is_ordered_tree t lo hi = true ↔
      ordered t ∧ ∀ x ∈ keys t, lo ≤ x ∧ x ≤ hi := by
  induction t with
  | nullptr => intro lo hi; simp [is_ordered_tree, ordered, keys]
  | node key left right ihl ihr =>
    intro lo hi
    simp only [is_ordered_tree, ordered, keys]
    by_cases hguard : key < lo ∨ key > hi
    · simp only [Bool.or_eq_true, decide_eq_true_eq, hguard, if_true]
      constructor
      · intro hf; cases hf
      · rintro ⟨_, hall⟩
        have := hall key (by simp)
        omega
    · simp only [Bool.or_eq_true, decide_eq_true_eq, hguard, if_false, Bool.and_eq_true,
        ihl, ihr]
      constructor
      · rintro ⟨⟨hol, hl⟩, hor, hr⟩
        refine ⟨⟨fun x hx => (hl x hx).2, fun x hx => (hr x hx).1, hol, hor⟩, ?_⟩
        intro x hx
        simp only [List.mem_append, List.mem_cons] at hx
        rcases hx with hx | rfl | hx
        · have := hl x hx; omega
        · omega
        · have := hr x hx; omega
      · rintro ⟨⟨hlk, hrk, hol, hor⟩, hall⟩
        refine ⟨⟨hol, fun x hx => ⟨(hall x (by simp [hx])).1, hlk x hx⟩⟩,
          hor, fun x hx => ⟨hrk x hx, (hall x (by simp [hx])).2⟩⟩

theorem balanced_build (values : List Int) : balanced (build_min_height_tree values) := by
  induction values using build_induction with
  | hnil => simp [build_nil, balanced]
  | hstep values h ihl ihr =>
    rw [build_ne_nil values h, balanced, height_build, height_build, length_take_middle,
      length_drop_middle]
    refine ⟨?_, ?_, ihl, ihr⟩
    · by_cases h2 : values.length / 2 = 0
      · simp [h2, min_height]
      · rw [min_height_half _ h2]
        have := @min_height_mono (values.length / 2 / 2)
          (values.length - (values.length / 2 + 1)) (by omega)
        omega
    · have := @min_height_mono (values.length - (values.length / 2 + 1))
        (values.length / 2) (by omega)
      omega

/-! ## The claims -/

/-- C11: the height of the tree built from `n` values is 0 when `n = 0` and
`floor(log2(n)) + 1` otherwise. -/
theorem height_of_built_tree (values : List Int) :
    tree_height (build_min_height_tree values) =
      if values.length = 0 then 0 else Nat.log 2 values.length + 1 :=
  height_build values

/-- C12: for values of type `int` sorted in non-decreasing order,
`is_ordered_tree` with its default bounds returns true on the built tree. -/
theorem sorted_input_gives_ordered_tree (values : List Int)
    (hsorted : values.Pairwise (· ≤ ·))
    (hint : ∀ x ∈ values, INT_MIN ≤ x ∧ x ≤ INT_MAX) :
    is_ordered_tree (build_min_height_tree values) INT_MIN INT_MAX = true :=
  is_ordered_build values INT_MIN INT_MAX hsorted hint

/-- The theorem `sorted_input_gives_ordered_tree` at a sorted sequence with a
repeated value. -/
theorem sorted_input_gives_ordered_tree_witness :
    [(-3 : Int), 1, 1, 2, 5].Pairwise (· ≤ ·) ∧
    (∀ x ∈ [(-3 : Int), 1, 1, 2, 5], INT_MIN ≤ x ∧ x ≤ INT_MAX) ∧
    is_ordered_tree (build_min_height_tree [-3, 1, 1, 2, 5]) INT_MIN INT_MAX = true :=
  ⟨by decide, by decide,
    sorted_input_gives_ordered_tree [-3, 1, 1, 2, 5] (by decide) (by decide)⟩

/-- C13: `count` on the built tree gives, for every `x`, the number of
occurrences of `x` in the input values. -/
theorem built_tree_holds_the_values (values : List Int) (x : Int) :
    count (build_min_height_tree values) x = values.count x :=
  count_build values x

/-- C14: the built tree is at most as high as any binary tree with as many
nodes as there are input values. -/
theorem built_tree_has_minimum_height (values : List Int) (t : tree_node)
    (hcount : node_count t = values.length) :
    tree_height (build_min_height_tree values) ≤ tree_height t := by
  rw [height_build, ← hcount]
  exact min_height_le_height t

/-- The theorem `built_tree_has_minimum_height` at three values and a tree of
three nodes in a chain. -/
theorem built_tree_has_minimum_height_witness :
    node_count (.node 1 .nullptr (.node 2 .nullptr (.node 3 .nullptr .nullptr)))
      = [(1 : Int), 2, 3].length ∧
    tree_height (build_min_height_tree [1, 2, 3]) ≤
      tree_height (.node 1 .nullptr (.node 2 .nullptr (.node 3 .nullptr .nullptr))) :=
  ⟨by decide, built_tree_has_minimum_height [1, 2, 3]
    (.node 1 .nullptr (.node 2 .nullptr (.node 3 .nullptr .nullptr))) (by decide)⟩

/-- C15: on a tree whose keys are values of `int`, `is_ordered_tree` with
its default bounds returns true exactly when the tree is ordered in the
sense of the note of `solve.cpp`. -/
theorem is_ordered_tree_decides_ordered (t : tree_node) (hint : int_keys t) :
    is_ordered_tree t INT_MIN INT_MAX = true ↔ ordered t := by
  rw [is_ordered_tree_iff]
  exact ⟨fun h => h.1, fun h => ⟨h, hint⟩⟩

/-- The theorem `is_ordered_tree_decides_ordered` at a tree that is not
ordered: the key 4 is in the left subtree of the root 3. -/
theorem is_ordered_tree_decides_ordered_witness :
    int_keys (.node 3 (.node 1 .nullptr (.node 4 .nullptr .nullptr)) .nullptr) ∧
    (is_ordered_tree (.node 3 (.node 1 .nullptr (.node 4 .nullptr .nullptr)) .nullptr)
      INT_MIN INT_MAX = true ↔
    ordered (.node 3 (.node 1 .nullptr (.node 4 .nullptr .nullptr)) .nullptr)) :=
  ⟨by unfold int_keys; decide,
    is_ordered_tree_decides_ordered _ (by unfold int_keys; decide)⟩

/-- C16: at every node of the built tree the heights of the left and right
subtrees differ by at most 1. -/
theorem built_tree_is_balanced (values : List Int) :
    balanced (build_min_height_tree values) :=
  balanced_build values

end MinHeightTree
